import Mathlib

/-!
Verification of the classification-cache and near-duplicate-detection
subsystem of the feishu-brief-news repository (`src/processor.py`).

The Python code is shallowly embedded: dictionaries become association
lists (Python dicts preserve insertion order), floats become rationals,
timestamps become naturals (ISO-8601 strings compare like their time
values), and the runtime-salted word hash used by `get_embedding` is
abstracted as a parameter `embed` together with an abstract cosine
similarity `cosSim`, since every claim about `deduplicate` is conditional
only on how similarities compare to the threshold.
-/

set_option maxRecDepth 100000

namespace FeishuNews

/-! ### Keyword extraction (`ClassificationCache._extract_keywords`)

`re.findall(r'[a-zA-Z]+|[一-鿿]+', title.lower())` extracts
maximal runs of Latin letters and maximal runs of CJK ideographs as
separate tokens; tokens of length ≤ 1 and stop words are discarded. -/

inductive CharClass
  | latin
  | cjk
  | other
deriving DecidableEq, Repr

def classOf (c : Char) : CharClass :=
  if ('a' ≤ c ∧ c ≤ 'z') ∨ ('A' ≤ c ∧ c ≤ 'Z') then CharClass.latin
  else if 0x4e00 ≤ c.val ∧ c.val ≤ 0x9fff then CharClass.cjk
  else CharClass.other

def tokenize : List Char → List String
  | [] => []
  | c :: cs =>
    if classOf c = CharClass.other then
      tokenize cs
    else
      String.mk (c :: cs.takeWhile (fun d => decide (classOf d = classOf c))) ::
        tokenize (cs.dropWhile (fun d => decide (classOf d = classOf c)))
termination_by l => l.length
decreasing_by
  · simp only [List.length_cons]
    omega
  · have h := (List.dropWhile_sublist (l := cs) (fun d => decide (classOf d = classOf c))).length_le
    simp only [List.length_cons]
    omega

def stopWords : List String :=
  ["the", "a", "an", "is", "are", "was", "were", "in", "on", "at", "to", "for",
   "of", "and", "or", "with", "as", "by", "from", "its", "it", "this", "that",
   "的", "是", "在", "和", "了", "与", "将", "为", "被", "对", "等", "个"]

/-- The keyword tokens of a title, deduplicated (Python builds a set). -/
def keywordList (title : String) : List String :=
  ((tokenize (title.toList.map Char.toLower)).filter
    (fun w => decide (1 < w.length) && !(stopWords.contains w))).dedup

def extractKeywords (title : String) : Finset String :=
  (keywordList title).toFinset

/-! ### Classification cache -/

structure CacheEntry where
  category : String
  confidence : ℚ
  keywords : List String
  usedAt : Nat
deriving DecidableEq, Repr

/-- The in-memory cache: insertion-ordered mapping from title to entry,
plus the `max_size` bound. -/
structure ClassificationCache where
  maxSize : Nat
  cache : List (String × CacheEntry)
deriving DecidableEq

/-- `ClassificationCache._calc_similarity`: Jaccard index, 0 on empty sets. -/
def calcSimilarity (kw1 kw2 : Finset String) : ℚ :=
  if kw1 = ∅ ∨ kw2 = ∅ then 0
  else
    let intersection : ℚ := (kw1 ∩ kw2).card
    let union : ℚ := (kw1 ∪ kw2).card
    if 0 < union then intersection / union else 0

/-- Similarity of the query keywords against one stored entry
(the stored keyword list is read back as a set). -/
def entrySim (kw : Finset String) (e : CacheEntry) : ℚ :=
  calcSimilarity kw e.keywords.toFinset

/-- The scan loop of `get_cached_category`: accumulator is
`(best_match, best_similarity)`, updated when
`similarity > best_similarity and similarity >= threshold`. -/
def bestLoop (kw : Finset String) (threshold : ℚ) :
    List (String × CacheEntry) → Option CacheEntry × ℚ → Option CacheEntry × ℚ
  | [], acc => acc
  | p :: rest, acc =>
    let s := entrySim kw p.2
    if acc.2 < s ∧ threshold ≤ s then bestLoop kw threshold rest (some p.2, s)
    else bestLoop kw threshold rest acc

/-- `ClassificationCache.get_cached_category`. Returns the (unchanged)
cache state together with the optional `(category, confidence * sim)`. -/
def getCachedCategory (c : ClassificationCache) (title : String) (threshold : ℚ) :
    ClassificationCache × Option (String × ℚ) :=
  let keywords := extractKeywords title
  if keywords.card < 2 then (c, none)
  else
    match bestLoop keywords threshold c.cache (none, 0) with
    | (some best, bestSim) => (c, some (best.category, best.confidence * bestSim))
    | (none, _) => (c, none)

/-- Python dict assignment `self.cache[title] = {...}`: replace in place
if the key exists, otherwise append at the end. -/
def upsert (l : List (String × CacheEntry)) (k : String) (v : CacheEntry) :
    List (String × CacheEntry) :=
  match l with
  | [] => [(k, v)]
  | p :: rest => if p.1 = k then (k, v) :: rest else p :: upsert rest k v

/-- `ClassificationCache.add_to_cache`: no-op below 2 keywords, otherwise
upsert the entry with the current timestamp.  (The periodic `_save_cache`
is I/O and does not change the mapping.) -/
def addToCache (c : ClassificationCache) (title category : String)
    (confidence : ℚ) (now : Nat) : ClassificationCache :=
  let keywords := extractKeywords title
  if keywords.card < 2 then c
  else
    { c with
      cache := upsert c.cache title
        { category := category, confidence := confidence,
          keywords := (keywordList title), usedAt := now } }

/-- Descending order on `used_at` (the `sorted(..., reverse=True)` key). -/
def usedAtDesc (a b : String × CacheEntry) : Prop :=
  b.2.usedAt ≤ a.2.usedAt

instance : DecidableRel usedAtDesc := fun a b => Nat.decLe b.2.usedAt a.2.usedAt

instance : IsTotal (String × CacheEntry) usedAtDesc :=
  ⟨fun a b => (Nat.le_total b.2.usedAt a.2.usedAt).elim Or.inl Or.inr⟩

instance : IsTrans (String × CacheEntry) usedAtDesc :=
  ⟨fun _ _ _ hab hbc => Nat.le_trans hbc hab⟩

/-- The eviction step of `ClassificationCache._load_cache`: when the stored
entry count exceeds `max_size`, keep the `max_size` entries with the most
recent `used_at`. -/
def loadEviction (maxSize : Nat) (data : List (String × CacheEntry)) :
    List (String × CacheEntry) :=
  if maxSize < data.length then (List.insertionSort usedAtDesc data).take maxSize
  else data

/-! ### Near-duplicate detection (`NewsProcessor.deduplicate`) -/

structure ProcessedArticle where
  id : String
  titleOriginal : String
  titleZh : String
  summaryZh : String
  publishedAt : Nat
  isPrimary : Bool
  relatedEventId : Option String
deriving DecidableEq, Repr

/-- The text embedded for dedup: `f"{article.title_original} {article.title_zh}"`. -/
def articleText (a : ProcessedArticle) : String :=
  a.titleOriginal ++ " " ++ a.titleZh

/-- Chronological order used by `articles.sort(key=lambda x: x.published_at)`. -/
def byPublishedAt (a b : ProcessedArticle) : Prop :=
  a.publishedAt ≤ b.publishedAt

instance : DecidableRel byPublishedAt := fun a b => Nat.decLe a.publishedAt b.publishedAt

instance : IsTotal ProcessedArticle byPublishedAt :=
  ⟨fun a b => (Nat.le_total a.publishedAt b.publishedAt).elim Or.inl Or.inr⟩

instance : IsTrans ProcessedArticle byPublishedAt :=
  ⟨fun _ _ _ hab hbc => Nat.le_trans hab hbc⟩

/-- The inner `for event_emb, event_id in seen_events` loop: the scan
breaks at the first seen event whose similarity exceeds the threshold. -/
def findDup {V : Type} (cosSim : V → V → ℚ) (threshold : ℚ) (e : V) :
    List (V × String) → Option String
  | [] => none
  | p :: rest =>
    if threshold < cosSim e p.1 then some p.2 else findDup cosSim threshold e rest

/-- The main scan of `deduplicate` over the chronologically sorted list,
carrying the `seen_events` list.  A duplicate is kept only when
`len(article.summary_zh) > 1000`; a non-duplicate becomes primary and
registers a new seen event `(embedding, article.id)`. -/
def dedupScan {V : Type} (cosSim : V → V → ℚ) (embed : String → V) (threshold : ℚ) :
    List ProcessedArticle → List (V × String) → List ProcessedArticle
  | [], _ => []
  | a :: rest, seen =>
    match findDup cosSim threshold (embed (articleText a)) seen with
    | some eventId =>
      if 1000 < a.summaryZh.length then
        { a with isPrimary := false, relatedEventId := some eventId } ::
          dedupScan cosSim embed threshold rest seen
      else
        dedupScan cosSim embed threshold rest seen
    | none =>
      { a with isPrimary := true } ::
        dedupScan cosSim embed threshold rest (seen ++ [(embed (articleText a), a.id)])

/-- The `seen_events` state after scanning a list of articles. -/
def seenEvents {V : Type} (cosSim : V → V → ℚ) (embed : String → V) (threshold : ℚ) :
    List ProcessedArticle → List (V × String) → List (V × String)
  | [], seen => seen
  | a :: rest, seen =>
    match findDup cosSim threshold (embed (articleText a)) seen with
    | some _ => seenEvents cosSim embed threshold rest seen
    | none => seenEvents cosSim embed threshold rest (seen ++ [(embed (articleText a), a.id)])

/-- `NewsProcessor.deduplicate`: empty input short-circuits; otherwise
sort by `published_at` and scan with an empty seen-event list. -/
def deduplicate {V : Type} (cosSim : V → V → ℚ) (embed : String → V) (threshold : ℚ)
    (articles : List ProcessedArticle) : List ProcessedArticle :=
  if articles = [] then []
  else dedupScan cosSim embed threshold (List.insertionSort byPublishedAt articles) []

/-- Membership of an article in the event represented by id `r`. -/
def inEvent (r : String) (a : ProcessedArticle) : Bool :=
  a.id == r || a.relatedEventId == some r

/-- `r` is the representative id of some event visible in output `L`. -/
def isEventId (L : List ProcessedArticle) (r : String) : Prop :=
  ∃ a ∈ L, (a.isPrimary = true ∧ a.id = r) ∨ a.relatedEventId = some r

/-! ### Helper lemmas about the dedup scan -/

section DedupLemmas

variable {V : Type} (cosSim : V → V → ℚ) (embed : String → V) (threshold : ℚ)

theorem findDup_eq_none_iff (e : V) (seen : List (V × String)) :
    findDup cosSim threshold e seen = none ↔ ∀ p ∈ seen, cosSim e p.1 ≤ threshold := by
  induction seen with
  | nil => simp [findDup]
  | cons p rest ih =>
    by_cases h : threshold < cosSim e p.1
    · simp only [findDup, h, if_true]
      constructor
      · intro hsome
        simp at hsome
      · intro hall
        exact absurd h (not_lt.mpr (hall p (List.mem_cons_self p rest)))
    · simp only [findDup, h, if_false]
      rw [ih]
      constructor
      · intro hall q hq
        rcases List.mem_cons.mp hq with hqp | hqr
        · rw [hqp]
          exact le_of_not_lt h
        · exact hall q hqr
      · intro hall q hq
        exact hall q (List.mem_cons_of_mem p hq)

theorem findDup_eq_some (e : V) (seen : List (V × String)) (eid : String)
    (h : findDup cosSim threshold e seen = some eid) :
    ∃ p ∈ seen, p.2 = eid ∧ threshold < cosSim e p.1 := by
  induction seen with
  | nil => simp [findDup] at h
  | cons p rest ih =>
    by_cases hp : threshold < cosSim e p.1
    · simp [findDup, hp] at h
      exact ⟨p, List.mem_cons_self p rest, h, hp⟩
    · simp [findDup, hp] at h
      obtain ⟨q, hq, hqe, hqs⟩ := ih h
      exact ⟨q, List.mem_cons_of_mem p hq, hqe, hqs⟩

theorem findDup_first (e : V) (s1 s2 : List (V × String)) (p : V × String)
    (hmiss : ∀ q ∈ s1, cosSim e q.1 ≤ threshold) (hhit : threshold < cosSim e p.1) :
    findDup cosSim threshold e (s1 ++ p :: s2) = some p.2 := by
  induction s1 with
  | nil => simp [findDup, hhit]
  | cons q rest ih =>
    have hq : ¬ threshold < cosSim e q.1 :=
      not_lt.mpr (hmiss q (List.mem_cons_self q rest))
    simp only [List.cons_append, findDup, hq, if_false]
    exact ih fun x hx => hmiss x (List.mem_cons_of_mem q hx)

theorem dedupScan_append (l1 l2 : List ProcessedArticle) (seen : List (V × String)) :
    dedupScan cosSim embed threshold (l1 ++ l2) seen
      = dedupScan cosSim embed threshold l1 seen
        ++ dedupScan cosSim embed threshold l2 (seenEvents cosSim embed threshold l1 seen) := by
  induction l1 generalizing seen with
  | nil => simp [dedupScan, seenEvents]
  | cons a rest ih =>
    cases h : findDup cosSim threshold (embed (articleText a)) seen with
    | some eid =>
      by_cases hlen : 1000 < a.summaryZh.length
      · simp [dedupScan, seenEvents, h, hlen, ih]
      · simp [dedupScan, seenEvents, h, hlen, ih]
    | none => simp [dedupScan, seenEvents, h, ih]

/-- Every non-primary article of the scan output points (via
`relatedEventId`) either at a primary article emitted before it or at an
event seeded in the incoming `seen` list. -/
theorem dedupScan_nonprimary_split (l : List ProcessedArticle) (seen : List (V × String))
    (L1 L2 : List ProcessedArticle) (a : ProcessedArticle)
    (hsplit : dedupScan cosSim embed threshold l seen = L1 ++ a :: L2)
    (hnp : a.isPrimary = false) :
    (∃ b ∈ L1, b.isPrimary = true ∧ a.relatedEventId = some b.id)
      ∨ ∃ p ∈ seen, a.relatedEventId = some p.2 := by
  induction l generalizing seen L1 with
  | nil =>
    rw [dedupScan] at hsplit
    exact absurd hsplit.symm (List.append_ne_nil_of_right_ne_nil L1 (List.cons_ne_nil a L2))
  | cons x rest ih =>
    cases h : findDup cosSim threshold (embed (articleText x)) seen with
    | some eid =>
      by_cases hlen : 1000 < x.summaryZh.length
      · simp only [dedupScan, h, hlen, if_true] at hsplit
        cases L1 with
        | nil =>
          simp only [List.nil_append, List.cons.injEq] at hsplit
          obtain ⟨p, hp, hpe, _⟩ := findDup_eq_some cosSim threshold _ seen eid h
          refine Or.inr ⟨p, hp, ?_⟩
          rw [← hsplit.1, hpe]
        | cons b L1t =>
          simp only [List.cons_append, List.cons.injEq] at hsplit
          rcases ih seen L1t hsplit.2 with hfound | hseed
          · obtain ⟨c, hc, hcp, hce⟩ := hfound
            exact Or.inl ⟨c, List.mem_cons_of_mem b hc, hcp, hce⟩
          · exact Or.inr hseed
      · simp only [dedupScan, h, hlen, if_false] at hsplit
        exact ih seen L1 hsplit
    | none =>
      simp only [dedupScan, h] at hsplit
      cases L1 with
      | nil =>
        simp only [List.nil_append, List.cons.injEq] at hsplit
        rw [← hsplit.1] at hnp
        simp at hnp
      | cons b L1t =>
        simp only [List.cons_append, List.cons.injEq] at hsplit
        rcases ih (seen ++ [(embed (articleText x), x.id)]) L1t hsplit.2 with hfound | hseed
        · obtain ⟨c, hc, hcp, hce⟩ := hfound
          exact Or.inl ⟨c, List.mem_cons_of_mem b hc, hcp, hce⟩
        · obtain ⟨p, hp, hpe⟩ := hseed
          rcases List.mem_append.mp hp with hin | hnew
          · exact Or.inr ⟨p, hin, hpe⟩
          · refine Or.inl ⟨b, List.mem_cons_self b L1t, ?_, ?_⟩
            · rw [← hsplit.1]
            · simp only [List.mem_singleton] at hnew
              rw [hpe, hnew, ← hsplit.1]

/-- Every seen event accumulated by the scan is either one of the seeds or
is represented by a primary article of the scan output. -/
theorem seenEvents_rep (l : List ProcessedArticle) (seen : List (V × String))
    (p : V × String) (hp : p ∈ seenEvents cosSim embed threshold l seen) :
    p ∈ seen ∨ ∃ b ∈ dedupScan cosSim embed threshold l seen,
      b.isPrimary = true ∧ b.id = p.2 := by
  induction l generalizing seen with
  | nil =>
    rw [seenEvents] at hp
    exact Or.inl hp
  | cons x rest ih =>
    cases h : findDup cosSim threshold (embed (articleText x)) seen with
    | some eid =>
      rw [seenEvents, h] at hp
      rcases ih seen hp with hin | ⟨b, hb, hbp, hbe⟩
      · exact Or.inl hin
      · refine Or.inr ⟨b, ?_, hbp, hbe⟩
        by_cases hlen : 1000 < x.summaryZh.length
        · simp [dedupScan, h, hlen]
          exact Or.inr hb
        · simpa [dedupScan, h, hlen] using hb
    | none =>
      rw [seenEvents, h] at hp
      rcases ih (seen ++ [(embed (articleText x), x.id)]) hp with hin | ⟨b, hb, hbp, hbe⟩
      · rcases List.mem_append.mp hin with hold | hnew
        · exact Or.inl hold
        · simp only [List.mem_singleton] at hnew
          refine Or.inr ⟨{ x with isPrimary := true }, ?_, rfl, ?_⟩
          · simp [dedupScan, h]
          · rw [hnew]
      · refine Or.inr ⟨b, ?_, hbp, hbe⟩
        simp [dedupScan, h]
        exact Or.inr hb

/-- The ids of the scan output form a sublist of the input ids. -/
theorem dedupScan_ids_sublist (l : List ProcessedArticle) (seen : List (V × String)) :
    ((dedupScan cosSim embed threshold l seen).map (fun a => a.id)).Sublist
      (l.map (fun a => a.id)) := by
  induction l generalizing seen with
  | nil => simp [dedupScan]
  | cons x rest ih =>
    cases h : findDup cosSim threshold (embed (articleText x)) seen with
    | some eid =>
      by_cases hlen : 1000 < x.summaryZh.length
      · simpa [dedupScan, h, hlen] using (ih seen).cons₂ x.id
      · simp only [dedupScan, h, hlen, if_false]
        exact (ih seen).trans (List.sublist_cons_self x.id (rest.map (fun a => a.id)))
    | none =>
      simpa [dedupScan, h] using (ih (seen ++ [(embed (articleText x), x.id)])).cons₂ x.id

/-- Primary output articles keep the (input) `relatedEventId`, which is
`None` for freshly processed articles. -/
theorem dedupScan_primary_relatedNone (l : List ProcessedArticle) (seen : List (V × String))
    (hl : ∀ a ∈ l, a.relatedEventId = none) :
    ∀ b ∈ dedupScan cosSim embed threshold l seen,
      b.isPrimary = true → b.relatedEventId = none := by
  induction l generalizing seen with
  | nil => simp [dedupScan]
  | cons x rest ih =>
    intro b hb hbp
    have hrest : ∀ a ∈ rest, a.relatedEventId = none :=
      fun a ha => hl a (List.mem_cons_of_mem x ha)
    cases h : findDup cosSim threshold (embed (articleText x)) seen with
    | some eid =>
      by_cases hlen : 1000 < x.summaryZh.length
      · rw [dedupScan, h] at hb
        simp only [hlen, if_true, List.mem_cons] at hb
        rcases hb with hbx | hbr
        · rw [hbx] at hbp
          simp at hbp
        · exact ih seen hrest b hbr hbp
      · rw [dedupScan, h] at hb
        simp only [hlen, if_false] at hb
        exact ih seen hrest b hb hbp
    | none =>
      rw [dedupScan, h] at hb
      rcases List.mem_cons.mp hb with hbx | hbr
      · rw [hbx]
        simpa using hl x (List.mem_cons_self x rest)
      · exact ih (seen ++ [(embed (articleText x), x.id)]) hrest b hbr hbp

/-- When no article resembles any seed or any other article, the scan
marks everything primary and keeps everything. -/
theorem dedupScan_all_primary (l : List ProcessedArticle) (seen : List (V × String))
    (hseen : ∀ x ∈ l, ∀ p ∈ seen, cosSim (embed (articleText x)) p.1 ≤ threshold)
    (hdist : l.Pairwise
      (fun a b => cosSim (embed (articleText b)) (embed (articleText a)) < threshold)) :
    dedupScan cosSim embed threshold l seen = l.map (fun a => { a with isPrimary := true }) := by
  induction l generalizing seen with
  | nil => simp [dedupScan]
  | cons x rest ih =>
    have hx : findDup cosSim threshold (embed (articleText x)) seen = none :=
      (findDup_eq_none_iff cosSim threshold _ seen).mpr
        (hseen x (List.mem_cons_self x rest))
    rw [dedupScan, hx]
    simp only [List.map_cons, List.cons.injEq, true_and]
    refine ih (seen ++ [(embed (articleText x), x.id)]) ?_ (List.Pairwise.of_cons hdist)
    intro y hy p hp
    rcases List.mem_append.mp hp with hold | hnew
    · exact hseen y (List.mem_cons_of_mem x hy) p hold
    · simp only [List.mem_singleton] at hnew
      rw [hnew]
      exact le_of_lt ((List.pairwise_cons.mp hdist).1 y hy)

end DedupLemmas

/-! ### Helper lemmas about the cache scan loop -/

section CacheLemmas

variable (kw : Finset String) (threshold : ℚ)

theorem bestLoop_acc_le (l : List (String × CacheEntry)) (acc : Option CacheEntry × ℚ) :
    acc.2 ≤ (bestLoop kw threshold l acc).2 := by
  induction l generalizing acc with
  | nil => simp [bestLoop]
  | cons p rest ih =>
    by_cases h : acc.2 < entrySim kw p.2 ∧ threshold ≤ entrySim kw p.2
    · simp only [bestLoop, h, if_true]
      exact le_trans (le_of_lt h.1) (ih (some p.2, entrySim kw p.2))
    · simp only [bestLoop, h, if_false]
      exact ih acc

theorem bestLoop_ge_qualifying (l : List (String × CacheEntry)) (acc : Option CacheEntry × ℚ)
    (q : String × CacheEntry) (hq : q ∈ l) (hqual : threshold ≤ entrySim kw q.2) :
    entrySim kw q.2 ≤ (bestLoop kw threshold l acc).2 := by
  induction l generalizing acc with
  | nil => simp at hq
  | cons p rest ih =>
    rcases List.mem_cons.mp hq with hqp | hqr
    · by_cases h : acc.2 < entrySim kw p.2 ∧ threshold ≤ entrySim kw p.2
      · simp only [bestLoop, h, if_true]
        rw [hqp]
        exact bestLoop_acc_le kw threshold rest (some p.2, entrySim kw p.2)
      · simp only [bestLoop, h, if_false]
        rw [not_and_or] at h
        rcases h with hns | hnt
        · rw [hqp]
          exact le_trans (le_of_not_lt hns) (bestLoop_acc_le kw threshold rest acc)
        · rw [hqp] at hqual
          exact absurd hqual hnt
    · by_cases h : acc.2 < entrySim kw p.2 ∧ threshold ≤ entrySim kw p.2
      · simp only [bestLoop, h, if_true]
        exact ih (some p.2, entrySim kw p.2) hqr
      · simp only [bestLoop, h, if_false]
        exact ih acc hqr

theorem bestLoop_cases (l : List (String × CacheEntry)) (acc : Option CacheEntry × ℚ) :
    bestLoop kw threshold l acc = acc
      ∨ ∃ q ∈ l, (bestLoop kw threshold l acc).1 = some q.2
          ∧ (bestLoop kw threshold l acc).2 = entrySim kw q.2
          ∧ threshold ≤ entrySim kw q.2 := by
  induction l generalizing acc with
  | nil => exact Or.inl rfl
  | cons p rest ih =>
    by_cases h : acc.2 < entrySim kw p.2 ∧ threshold ≤ entrySim kw p.2
    · simp only [bestLoop, h, if_true]
      rcases ih (some p.2, entrySim kw p.2) with heq | ⟨q, hq, hres⟩
      · refine Or.inr ⟨p, List.mem_cons_self p rest, ?_⟩
        rw [heq]
        exact ⟨rfl, rfl, h.2⟩
      · exact Or.inr ⟨q, List.mem_cons_of_mem p hq, hres⟩
    · simp only [bestLoop, h, if_false]
      rcases ih acc with heq | ⟨q, hq, hres⟩
      · exact Or.inl heq
      · exact Or.inr ⟨q, List.mem_cons_of_mem p hq, hres⟩

theorem bestLoop_of_no_qualifying (l : List (String × CacheEntry))
    (acc : Option CacheEntry × ℚ) (hnone : ∀ q ∈ l, entrySim kw q.2 < threshold) :
    bestLoop kw threshold l acc = acc := by
  induction l generalizing acc with
  | nil => rfl
  | cons p rest ih =>
    have hp : ¬ (acc.2 < entrySim kw p.2 ∧ threshold ≤ entrySim kw p.2) := by
      rintro ⟨-, hth⟩
      exact absurd hth (not_le.mpr (hnone p (List.mem_cons_self p rest)))
    simp only [bestLoop, hp, if_false]
    exact ih acc (fun q hq => hnone q (List.mem_cons_of_mem p hq))

theorem upsert_length (l : List (String × CacheEntry)) (k : String) (v : CacheEntry) :
    (upsert l k v).length ≤ l.length + 1 := by
  induction l with
  | nil => simp [upsert]
  | cons p rest ih =>
    by_cases h : p.1 = k
    · simp [upsert, h]
    · simp only [upsert, h, if_false, List.length_cons]
      omega

theorem upsert_mem_of_ne (l : List (String × CacheEntry)) (k : String) (v : CacheEntry)
    (p : String × CacheEntry) (hp : p ∈ l) (hne : p.1 ≠ k) : p ∈ upsert l k v := by
  induction l with
  | nil => simp at hp
  | cons q rest ih =>
    rcases List.mem_cons.mp hp with hpq | hpr
    · by_cases h : q.1 = k
      · rw [hpq] at hne
        exact absurd h hne
      · rw [upsert]
        simp only [h, if_false]
        rw [hpq]
        exact List.mem_cons_self q _
    · by_cases h : q.1 = k
      · rw [upsert]
        simp only [h, if_true]
        exact List.mem_cons_of_mem (k, v) hpr
      · rw [upsert]
        simp only [h, if_false]
        exact List.mem_cons_of_mem q (ih hpr)

end CacheLemmas

/-! ### Claim C8 -/

/-- Claim C8: for all keyword sets A and B, `similarity(A,B)` lies in
[0,1]; `similarity(A,A) = 1` for nonempty A; and `similarity(A,B) = 0`
whenever A or B is empty. -/
theorem calcSimilarity_bounds (A B : Finset String) :
    (0 ≤ calcSimilarity A B ∧ calcSimilarity A B ≤ 1)
    ∧ (A.Nonempty → calcSimilarity A A = 1)
    ∧ ((A = ∅ ∨ B = ∅) → calcSimilarity A B = 0) := by
  refine ⟨⟨?_, ?_⟩, ?_, ?_⟩
  · simp only [calcSimilarity]
    split
    · exact le_refl 0
    · split
      · exact div_nonneg (Nat.cast_nonneg _) (Nat.cast_nonneg _)
      · exact le_refl 0
  · simp only [calcSimilarity]
    split
    · exact zero_le_one
    · split
      · refine div_le_one_of_le₀ ?_ (Nat.cast_nonneg _)
        exact_mod_cast Finset.card_le_card (Finset.inter_subset_union)
      · exact zero_le_one
  · intro hA
    have hAne : A ≠ ∅ := Finset.nonempty_iff_ne_empty.mp hA
    have hne : ¬ (A = ∅ ∨ A = ∅) := by simp [hAne]
    simp only [calcSimilarity, hne, if_false, Finset.inter_self, Finset.union_self]
    have hpos : (0:ℚ) < A.card := by
      exact_mod_cast Finset.card_pos.mpr hA
    rw [if_pos hpos]
    exact div_self (ne_of_gt hpos)
  · intro h
    have : A = ∅ ∨ B = ∅ := h
    simp [calcSimilarity, this]

/-- Claim C8 witness: the bounds evaluated at concrete keyword sets. -/
theorem calcSimilarity_bounds_witness :
    ({"ai", "chip"} : Finset String).Nonempty
    ∧ calcSimilarity {"ai", "chip"} {"ai", "chip"} = 1
    ∧ calcSimilarity ∅ {"ai", "chip"} = 0 := by
  have h := calcSimilarity_bounds {"ai", "chip"} {"ai", "chip"}
  have h0 := calcSimilarity_bounds (∅ : Finset String) {"ai", "chip"}
  refine ⟨⟨"ai", by decide⟩, h.2.1 ⟨"ai", by decide⟩, h0.2.2 (Or.inl rfl)⟩

/-! ### Claim C10 -/

/-- Claim C10: `get_cached_category` never mutates the cache state; in
particular a hit does not refresh the matched entry's `usedAt`. -/
theorem getCachedCategory_leaves_cache (c : ClassificationCache) (title : String)
    (threshold : ℚ) : (getCachedCategory c title threshold).1 = c := by
  by_cases h : (extractKeywords title).card < 2
  · simp [getCachedCategory, h]
  · rcases hb : bestLoop (extractKeywords title) threshold c.cache (none, 0) with ⟨bm, bs⟩
    cases bm with
    | none => simp [getCachedCategory, h, hb]
    | some e => simp [getCachedCategory, h, hb]

/-! ### Claim C4 (corrected) -/

/-- Claim C4 counterexample: a cache already at `maxSize = 1` grows to 2
entries under `add_to_cache` — no eviction happens on insert, so the cap
does not hold after every insert operation. -/
theorem addToCache_exceeds_maxSize :
    ¬ ((addToCache
        { maxSize := 1,
          cache := [("seed title",
            { category := "ai", confidence := 1, keywords := ["seed", "title"],
              usedAt := 0 })] }
        "hello world" "ai" 1 5).cache.length
      ≤ (1 : Nat)) := by
  have ht : tokenize ("hello world".toList.map Char.toLower) = ["hello", "world"] := by
    simp [tokenize, classOf, List.takeWhile, List.dropWhile, String.toList, Char.toLower]
  have hk : keywordList "hello world" = ["hello", "world"] := by
    rw [keywordList, ht]
    decide
  simp only [addToCache, extractKeywords, hk]
  decide

/-- Claim C4 amended: `add_to_cache` never evicts — it upserts one entry
(so the size grows by at most one) and retains every differently-keyed
entry; consequently the in-memory cache can exceed `maxSize` between
loads, and the cap is enforced only by the load-time eviction. -/
theorem addToCache_no_eviction (c : ClassificationCache) (title category : String)
    (confidence : ℚ) (now : Nat) :
    (addToCache c title category confidence now).cache.length ≤ c.cache.length + 1
    ∧ ∀ p ∈ c.cache, p.1 ≠ title → p ∈ (addToCache c title category confidence now).cache := by
  by_cases h : (extractKeywords title).card < 2
  · simp only [addToCache, h, if_true]
    exact ⟨Nat.le_succ_of_le (le_refl _), fun p hp _ => hp⟩
  · simp only [addToCache, h, if_false]
    exact ⟨upsert_length c.cache title _, fun p hp hne => upsert_mem_of_ne c.cache title _ p hp hne⟩

/-- Claim C4 amended, witness: inserting into a one-entry cache keeps the
old entry and yields two entries. -/
theorem addToCache_no_eviction_witness :
    (addToCache ⟨1, [("seed title", ⟨"ai", 1, ["seed", "title"], 0⟩)]⟩
        "robots rising" "robotics" 1 7).cache.length ≤ 1 + 1
    ∧ ("seed title", (⟨"ai", 1, ["seed", "title"], 0⟩ : CacheEntry)) ∈
        (addToCache ⟨1, [("seed title", ⟨"ai", 1, ["seed", "title"], 0⟩)]⟩
          "robots rising" "robotics" 1 7).cache := by
  have h := addToCache_no_eviction ⟨1, [("seed title", ⟨"ai", 1, ["seed", "title"], 0⟩)]⟩
    "robots rising" "robotics" 1 7
  exact ⟨h.1, h.2 _ (List.mem_cons_self _ _) (by decide)⟩

/-! ### Claim C5 -/

/-- Claim C5: after the load-time eviction step the cache holds at most
`maxSize` entries, and when the stored count exceeded `maxSize` the
retained entries are `maxSize` of the stored ones and every discarded
entry's `usedAt` is at most every retained entry's `usedAt`. -/
theorem loadEviction_cap (maxSize : Nat) (data : List (String × CacheEntry)) :
    (loadEviction maxSize data).length ≤ maxSize
    ∧ (maxSize < data.length →
        (loadEviction maxSize data).length = maxSize
        ∧ ∃ dropped,
            ((loadEviction maxSize data) ++ dropped).Perm data
            ∧ ∀ x ∈ loadEviction maxSize data, ∀ y ∈ dropped,
                y.2.usedAt ≤ x.2.usedAt) := by
  by_cases h : maxSize < data.length
  · have hperm : (List.insertionSort usedAtDesc data).Perm data :=
      List.perm_insertionSort usedAtDesc data
    have hsorted : List.Sorted usedAtDesc (List.insertionSort usedAtDesc data) :=
      List.sorted_insertionSort usedAtDesc data
    have hlen : (List.insertionSort usedAtDesc data).length = data.length := hperm.length_eq
    have htake : (loadEviction maxSize data).length = maxSize := by
      simp only [loadEviction, h, if_true, List.length_take]
      omega
    refine ⟨le_of_eq htake, fun _ => ⟨htake, (List.insertionSort usedAtDesc data).drop maxSize, ?_, ?_⟩⟩
    · simp only [loadEviction, h, if_true]
      rw [List.take_append_drop]
      exact hperm
    · intro x hx y hy
      rw [← List.take_append_drop maxSize (List.insertionSort usedAtDesc data)] at hsorted
      have hcross := (List.pairwise_append.mp hsorted).2.2
      simp only [loadEviction, h, if_true] at hx
      exact hcross x hx y hy
  · simp only [loadEviction, h, if_false]
    exact ⟨le_of_not_lt h, fun hcontra => hcontra.elim⟩

/-- Claim C5 witness: evicting a three-entry store down to `maxSize = 2`
keeps two entries, each at least as recently used as the dropped one. -/
theorem loadEviction_cap_witness :
    (2 : Nat) < ([("t1", { category := "ai", confidence := 1, keywords := ["k1", "k2"], usedAt := 1 }),
      ("t2", { category := "auto", confidence := 1, keywords := ["k3", "k4"], usedAt := 5 }),
      ("t3", { category := "health", confidence := 1, keywords := ["k5", "k6"], usedAt := 3 })]
        : List (String × CacheEntry)).length
    ∧ ((loadEviction 2
        [("t1", { category := "ai", confidence := 1, keywords := ["k1", "k2"], usedAt := 1 }),
         ("t2", { category := "auto", confidence := 1, keywords := ["k3", "k4"], usedAt := 5 }),
         ("t3", { category := "health", confidence := 1, keywords := ["k5", "k6"], usedAt := 3 })]).length = 2
      ∧ ∃ dropped,
          ((loadEviction 2
            [("t1", { category := "ai", confidence := 1, keywords := ["k1", "k2"], usedAt := 1 }),
             ("t2", { category := "auto", confidence := 1, keywords := ["k3", "k4"], usedAt := 5 }),
             ("t3", { category := "health", confidence := 1, keywords := ["k5", "k6"], usedAt := 3 })]) ++ dropped).Perm
            [("t1", { category := "ai", confidence := 1, keywords := ["k1", "k2"], usedAt := 1 }),
             ("t2", { category := "auto", confidence := 1, keywords := ["k3", "k4"], usedAt := 5 }),
             ("t3", { category := "health", confidence := 1, keywords := ["k5", "k6"], usedAt := 3 })]
          ∧ ∀ x ∈ loadEviction 2
              [("t1", { category := "ai", confidence := 1, keywords := ["k1", "k2"], usedAt := 1 }),
               ("t2", { category := "auto", confidence := 1, keywords := ["k3", "k4"], usedAt := 5 }),
               ("t3", { category := "health", confidence := 1, keywords := ["k5", "k6"], usedAt := 3 })],
            ∀ y ∈ dropped, y.2.usedAt ≤ x.2.usedAt) := by
  refine ⟨by decide, (loadEviction_cap 2 _).2 (by decide)⟩

/-! ### Claim C6 -/

/-- Claim C6: `lookup` returns nothing when the title yields fewer than 2
keywords; otherwise it returns nothing when no entry reaches the
threshold, and when some entry does it returns the category of an entry
of maximal similarity together with that entry's confidence multiplied by
the matched similarity. -/
theorem getCachedCategory_lookup (c : ClassificationCache) (title : String)
    (threshold : ℚ) (hpos : 0 < threshold) :
    ((extractKeywords title).card < 2 → (getCachedCategory c title threshold).2 = none)
    ∧ (¬ (extractKeywords title).card < 2 →
        ((∀ p ∈ c.cache, entrySim (extractKeywords title) p.2 < threshold) →
            (getCachedCategory c title threshold).2 = none)
        ∧ ((∃ p ∈ c.cache, threshold ≤ entrySim (extractKeywords title) p.2) →
            ∃ q ∈ c.cache,
              (getCachedCategory c title threshold).2
                = some (q.2.category, q.2.confidence * entrySim (extractKeywords title) q.2)
              ∧ threshold ≤ entrySim (extractKeywords title) q.2
              ∧ ∀ p ∈ c.cache,
                  entrySim (extractKeywords title) p.2
                    ≤ entrySim (extractKeywords title) q.2)) := by
  constructor
  · intro h
    simp [getCachedCategory, h]
  · intro hcard
    constructor
    · intro hnone
      have hloop := bestLoop_of_no_qualifying (extractKeywords title) threshold c.cache
        (none, 0) hnone
      simp [getCachedCategory, hcard, hloop]
    · intro hqual
      obtain ⟨p0, hp0, hp0q⟩ := hqual
      rcases bestLoop_cases (extractKeywords title) threshold c.cache (none, 0) with
        heq | ⟨q, hq, h1, h2, h3⟩
      · have hge := bestLoop_ge_qualifying (extractKeywords title) threshold c.cache
          (none, 0) p0 hp0 hp0q
        rw [heq] at hge
        simp only at hge
        exact absurd (lt_of_lt_of_le hpos (le_trans hp0q hge)) (lt_irrefl 0)
      · refine ⟨q, hq, ?_, h3, ?_⟩
        · rcases hb : bestLoop (extractKeywords title) threshold c.cache (none, 0) with ⟨bm, bs⟩
          rw [hb] at h1 h2
          simp only at h1 h2
          rw [h1] at hb
          rw [h2] at hb
          simp [getCachedCategory, hcard, hb]
        · intro p hp
          by_cases hpq : threshold ≤ entrySim (extractKeywords title) p.2
          · have hge := bestLoop_ge_qualifying (extractKeywords title) threshold c.cache
              (none, 0) p hp hpq
            rw [h2] at hge
            exact hge
          · exact le_trans (le_of_lt (lt_of_not_le hpq)) h3

theorem calcSimilarity_self (A : Finset String) (hA : A ≠ ∅) :
    calcSimilarity A A = 1 := by
  have hne : ¬ (A = ∅ ∨ A = ∅) := by simp [hA]
  simp only [calcSimilarity, hne, if_false, Finset.inter_self, Finset.union_self]
  have hpos : (0:ℚ) < A.card := by
    exact_mod_cast Finset.card_pos.mpr (Finset.nonempty_iff_ne_empty.mpr hA)
  rw [if_pos hpos]
  exact div_self (ne_of_gt hpos)

/-- Claim C6 witness: a two-keyword title matching a cached entry with
identical keywords at threshold 1 returns that entry's category with
confidence `1 * 1`. -/
theorem getCachedCategory_lookup_witness :
    (0:ℚ) < 1
    ∧ ¬ (extractKeywords "quantum chips").card < 2
    ∧ (∃ p ∈ (⟨10, [("quantum chips arrive",
          ⟨"semiconductor", 1, keywordList "quantum chips", 3⟩)]⟩
        : ClassificationCache).cache,
        (1:ℚ) ≤ entrySim (extractKeywords "quantum chips") p.2)
    ∧ ∃ q ∈ (⟨10, [("quantum chips arrive",
          ⟨"semiconductor", 1, keywordList "quantum chips", 3⟩)]⟩
        : ClassificationCache).cache,
        (getCachedCategory
          ⟨10, [("quantum chips arrive",
            ⟨"semiconductor", 1, keywordList "quantum chips", 3⟩)]⟩
          "quantum chips" 1).2
          = some (q.2.category,
              q.2.confidence * entrySim (extractKeywords "quantum chips") q.2)
        ∧ (1:ℚ) ≤ entrySim (extractKeywords "quantum chips") q.2
        ∧ ∀ p ∈ (⟨10, [("quantum chips arrive",
            ⟨"semiconductor", 1, keywordList "quantum chips", 3⟩)]⟩
          : ClassificationCache).cache,
            entrySim (extractKeywords "quantum chips") p.2
              ≤ entrySim (extractKeywords "quantum chips") q.2 := by
  have ht : tokenize ("quantum chips".toList.map Char.toLower) = ["quantum", "chips"] := by
    simp [tokenize, classOf, List.takeWhile, List.dropWhile, String.toList, Char.toLower]
  have hk : keywordList "quantum chips" = ["quantum", "chips"] := by
    rw [keywordList, ht]
    decide
  have hcard : ¬ (extractKeywords "quantum chips").card < 2 := by
    rw [extractKeywords, hk]
    decide
  have hne : extractKeywords "quantum chips" ≠ ∅ := by
    rw [extractKeywords, hk]
    decide
  have hsim : entrySim (extractKeywords "quantum chips")
      (⟨"semiconductor", 1, keywordList "quantum chips", 3⟩ : CacheEntry) = 1 := by
    simp only [entrySim, extractKeywords]
    exact calcSimilarity_self _ (by rw [← extractKeywords]; exact hne)
  have hqual : ∃ p ∈ (⟨10, [("quantum chips arrive",
        ⟨"semiconductor", 1, keywordList "quantum chips", 3⟩)]⟩
      : ClassificationCache).cache,
      (1:ℚ) ≤ entrySim (extractKeywords "quantum chips") p.2 :=
    ⟨("quantum chips arrive", ⟨"semiconductor", 1, keywordList "quantum chips", 3⟩),
      List.mem_cons_self _ _, le_of_eq hsim.symm⟩
  exact ⟨by norm_num, hcard, hqual,
    ((getCachedCategory_lookup
      ⟨10, [("quantum chips arrive", ⟨"semiconductor", 1, keywordList "quantum chips", 3⟩)]⟩
      "quantum chips" 1 (by norm_num)).2 hcard).2 hqual⟩

/-! ### Claim C7 -/

/-- Claim C7: on a batch whose articles are pairwise dissimilar (all
cosine similarities below the threshold), `deduplicate` returns all N
articles in order, each marked primary, so the output length is N. -/
theorem deduplicate_all_distinct {V : Type} (cosSim : V → V → ℚ) (embed : String → V)
    (threshold : ℚ) (articles : List ProcessedArticle)
    (hsorted : List.Sorted byPublishedAt articles)
    (hdist : articles.Pairwise
      (fun a b => cosSim (embed (articleText b)) (embed (articleText a)) < threshold)) :
    deduplicate cosSim embed threshold articles
      = articles.map (fun a => { a with isPrimary := true })
    ∧ (deduplicate cosSim embed threshold articles).length = articles.length := by
  by_cases hnil : articles = []
  · rw [hnil]
    exact ⟨by simp [deduplicate], by simp [deduplicate]⟩
  · have hmain : deduplicate cosSim embed threshold articles
        = articles.map (fun a => { a with isPrimary := true }) := by
      simp only [deduplicate, hnil, if_false]
      rw [hsorted.insertionSort_eq]
      exact dedupScan_all_primary cosSim embed threshold articles [] (by simp) hdist
    exact ⟨hmain, by rw [hmain, List.length_map]⟩

/-- Claim C7 witness: two dissimilar articles both survive as primaries. -/
theorem deduplicate_all_distinct_witness :
    List.Sorted byPublishedAt
      [⟨"a", "t1", "", "s1", 0, true, none⟩, ⟨"b", "t2", "", "s2", 1, true, none⟩]
    ∧ ([⟨"a", "t1", "", "s1", 0, true, none⟩,
        (⟨"b", "t2", "", "s2", 1, true, none⟩ : ProcessedArticle)].Pairwise
        (fun a b => (fun _ _ => (0:ℚ)) ((fun _ => (0:ℕ)) (articleText b))
            ((fun _ => (0:ℕ)) (articleText a)) < 1))
    ∧ deduplicate (fun _ _ => (0:ℚ)) (fun _ => (0:ℕ)) 1
        [⟨"a", "t1", "", "s1", 0, true, none⟩, ⟨"b", "t2", "", "s2", 1, true, none⟩]
      = [⟨"a", "t1", "", "s1", 0, true, none⟩,
         (⟨"b", "t2", "", "s2", 1, true, none⟩ : ProcessedArticle)].map
          (fun a => { a with isPrimary := true })
    ∧ (deduplicate (fun _ _ => (0:ℚ)) (fun _ => (0:ℕ)) 1
        [⟨"a", "t1", "", "s1", 0, true, none⟩, ⟨"b", "t2", "", "s2", 1, true, none⟩]).length
      = 2 := by
  have h := deduplicate_all_distinct (fun _ _ => (0:ℚ)) (fun _ => (0:ℕ)) 1
    [⟨"a", "t1", "", "s1", 0, true, none⟩, ⟨"b", "t2", "", "s2", 1, true, none⟩]
    (by decide) (by decide)
  exact ⟨by decide, by decide, h.1, h.2⟩

/-! ### Claim C1 -/

/-- Claim C1: an article marked as a duplicate (some seen-event embedding
exceeds the threshold) is dropped from the output exactly when its summary
does not exceed 1000 characters: for a short summary the output equals the
output of the batch without the article, while for a long summary the
article is retained non-primary with `relatedEventId` the representative's
id, and that representative appears earlier in the output as a primary
article. -/
theorem deduplicate_duplicate_retention {V : Type} (cosSim : V → V → ℚ)
    (embed : String → V) (threshold : ℚ) (l1 l2 : List ProcessedArticle)
    (a : ProcessedArticle)
    (hsorted : List.Sorted byPublishedAt (l1 ++ a :: l2))
    (hdup : ∃ p ∈ seenEvents cosSim embed threshold l1 [],
      threshold < cosSim (embed (articleText a)) p.1) :
    (a.summaryZh.length ≤ 1000 →
        deduplicate cosSim embed threshold (l1 ++ a :: l2)
          = deduplicate cosSim embed threshold (l1 ++ l2))
    ∧ (1000 < a.summaryZh.length →
        ∃ eid,
          deduplicate cosSim embed threshold (l1 ++ a :: l2)
            = dedupScan cosSim embed threshold l1 []
              ++ ({ a with isPrimary := false, relatedEventId := some eid }
                  :: dedupScan cosSim embed threshold l2
                      (seenEvents cosSim embed threshold l1 []))
          ∧ ∃ b ∈ dedupScan cosSim embed threshold l1 [],
              b.isPrimary = true ∧ b.id = eid) := by
  have hne : l1 ++ a :: l2 ≠ [] := by simp
  have hded : deduplicate cosSim embed threshold (l1 ++ a :: l2)
      = dedupScan cosSim embed threshold (l1 ++ a :: l2) [] := by
    rw [deduplicate, if_neg hne, hsorted.insertionSort_eq]
  rcases hfd : findDup cosSim threshold (embed (articleText a))
      (seenEvents cosSim embed threshold l1 []) with _ | eid
  · obtain ⟨p, hp, hps⟩ := hdup
    have hle := (findDup_eq_none_iff cosSim threshold _ _).mp hfd p hp
    exact absurd hps (not_lt.mpr hle)
  · constructor
    · intro hshort
      have hlen : ¬ 1000 < a.summaryZh.length := not_lt.mpr hshort
      rw [hded, dedupScan_append]
      have hstep : dedupScan cosSim embed threshold (a :: l2)
          (seenEvents cosSim embed threshold l1 [])
          = dedupScan cosSim embed threshold l2
              (seenEvents cosSim embed threshold l1 []) := by
        simp [dedupScan, hfd, hlen]
      rw [hstep]
      by_cases hnil2 : l1 ++ l2 = []
      · rw [(List.append_eq_nil.mp hnil2).1, (List.append_eq_nil.mp hnil2).2]
        simp [deduplicate, dedupScan, seenEvents]
      · have hsub : (l1 ++ l2).Sublist (l1 ++ a :: l2) :=
          (List.append_sublist_append_left l1).mpr (List.sublist_cons_self a l2)
        have hsorted2 : List.Sorted byPublishedAt (l1 ++ l2) :=
          List.Pairwise.sublist hsub hsorted
        rw [deduplicate, if_neg hnil2, hsorted2.insertionSort_eq, dedupScan_append]
    · intro hlong
      refine ⟨eid, ?_, ?_⟩
      · rw [hded, dedupScan_append]
        have hstep : dedupScan cosSim embed threshold (a :: l2)
            (seenEvents cosSim embed threshold l1 [])
            = { a with isPrimary := false, relatedEventId := some eid }
              :: dedupScan cosSim embed threshold l2
                  (seenEvents cosSim embed threshold l1 []) := by
          simp [dedupScan, hfd, hlong]
        rw [hstep]
      · obtain ⟨p, hp, hpe, _⟩ := findDup_eq_some cosSim threshold _ _ eid hfd
        rcases seenEvents_rep cosSim embed threshold l1 [] p hp with hin | ⟨b, hb, hbp, hbe⟩
        · simp at hin
        · exact ⟨b, hb, hbp, by rw [hbe, hpe]⟩

/-! ### Claim C2 -/

/-- Claim C2: when several seen events exceed the threshold, a retained
duplicate's `relatedEventId` is the representative id of the first event
in discovery order whose similarity exceeds the threshold — regardless of
the similarities of the later events (which may be higher). -/
theorem deduplicate_first_exceeding_wins {V : Type} (cosSim : V → V → ℚ)
    (embed : String → V) (threshold : ℚ) (l1 l2 : List ProcessedArticle)
    (s1 s2 : List (V × String)) (ev : V) (eid : String) (a : ProcessedArticle)
    (hsorted : List.Sorted byPublishedAt (l1 ++ a :: l2))
    (hseen : seenEvents cosSim embed threshold l1 [] = s1 ++ (ev, eid) :: s2)
    (hmiss : ∀ p ∈ s1, cosSim (embed (articleText a)) p.1 ≤ threshold)
    (hhit : threshold < cosSim (embed (articleText a)) ev)
    (hlong : 1000 < a.summaryZh.length) :
    deduplicate cosSim embed threshold (l1 ++ a :: l2)
      = dedupScan cosSim embed threshold l1 []
        ++ ({ a with isPrimary := false, relatedEventId := some eid }
            :: dedupScan cosSim embed threshold l2 (s1 ++ (ev, eid) :: s2)) := by
  have hfd : findDup cosSim threshold (embed (articleText a))
      (seenEvents cosSim embed threshold l1 []) = some eid := by
    rw [hseen]
    exact findDup_first cosSim threshold _ s1 s2 (ev, eid) hmiss hhit
  have hne : l1 ++ a :: l2 ≠ [] := by simp
  rw [deduplicate, if_neg hne, hsorted.insertionSort_eq, dedupScan_append]
  have hstep : dedupScan cosSim embed threshold (a :: l2)
      (seenEvents cosSim embed threshold l1 [])
      = { a with isPrimary := false, relatedEventId := some eid }
        :: dedupScan cosSim embed threshold l2
            (seenEvents cosSim embed threshold l1 []) := by
    simp [dedupScan, hfd, hlong]
  rw [hstep, hseen]

/-! ### Claim C9 -/

/-- Claim C9: in every output of `deduplicate`, each non-primary article's
`relatedEventId` is the id of an article appearing earlier in the output
with `isPrimary = true`. -/
theorem deduplicate_nonprimary_points_back {V : Type} (cosSim : V → V → ℚ)
    (embed : String → V) (threshold : ℚ) (articles L1 L2 : List ProcessedArticle)
    (a : ProcessedArticle)
    (hsplit : deduplicate cosSim embed threshold articles = L1 ++ a :: L2)
    (hnp : a.isPrimary = false) :
    ∃ b ∈ L1, b.isPrimary = true ∧ a.relatedEventId = some b.id := by
  by_cases hnil : articles = []
  · rw [hnil] at hsplit
    simp only [deduplicate, if_pos rfl] at hsplit
    exact absurd hsplit.symm (List.append_ne_nil_of_right_ne_nil L1 (List.cons_ne_nil a L2))
  · rw [deduplicate, if_neg hnil] at hsplit
    rcases dedupScan_nonprimary_split cosSim embed threshold _ [] L1 L2 a hsplit hnp with
      h | ⟨p, hp, _⟩
    · exact h
    · simp at hp

/-! ### Claim C3 -/

/-- Claim C3: after one run of `deduplicate` over a batch of freshly
processed articles (no preset `relatedEventId`, pairwise-distinct ids),
every event visible in the output — the articles assigned to one
representative id together with that representative — contains exactly one
article with `isPrimary = true`, and every non-primary article of the
event has a non-null `relatedEventId`. -/
theorem deduplicate_one_primary_per_event {V : Type} (cosSim : V → V → ℚ)
    (embed : String → V) (threshold : ℚ) (articles : List ProcessedArticle)
    (hnone : ∀ x ∈ articles, x.relatedEventId = none)
    (hids : (articles.map (fun x => x.id)).Nodup) :
    ∀ r, isEventId (deduplicate cosSim embed threshold articles) r →
      (∃! p, p ∈ deduplicate cosSim embed threshold articles
          ∧ inEvent r p = true ∧ p.isPrimary = true)
      ∧ ∀ x ∈ deduplicate cosSim embed threshold articles,
          inEvent r x = true → x.isPrimary = false → x.relatedEventId ≠ none := by
  intro r hr
  by_cases hnil : articles = []
  · rw [hnil] at hr
    obtain ⟨x, hx, -⟩ := hr
    simp [deduplicate] at hx
  · have hL : deduplicate cosSim embed threshold articles
        = dedupScan cosSim embed threshold
            (List.insertionSort byPublishedAt articles) [] := by
      rw [deduplicate, if_neg hnil]
    have hnone_s : ∀ x ∈ List.insertionSort byPublishedAt articles,
        x.relatedEventId = none :=
      fun x hx => hnone x ((List.mem_insertionSort byPublishedAt).mp hx)
    have hnodup_s : ((List.insertionSort byPublishedAt articles).map
        (fun x => x.id)).Nodup :=
      (((List.perm_insertionSort byPublishedAt articles).map (fun x => x.id)).nodup_iff).mpr hids
    have hnodupL : ((deduplicate cosSim embed threshold articles).map
        (fun x => x.id)).Nodup := by
      rw [hL]
      exact List.Nodup.sublist (dedupScan_ids_sublist cosSim embed threshold _ []) hnodup_s
    have hinj := List.inj_on_of_nodup_map hnodupL
    have hprim_none : ∀ b ∈ deduplicate cosSim embed threshold articles,
        b.isPrimary = true → b.relatedEventId = none := by
      rw [hL]
      exact dedupScan_primary_relatedNone cosSim embed threshold _ [] hnone_s
    have hresolve : ∀ x ∈ deduplicate cosSim embed threshold articles,
        x.isPrimary = false → ∃ b ∈ deduplicate cosSim embed threshold articles,
          b.isPrimary = true ∧ x.relatedEventId = some b.id := by
      intro x hx hxp
      obtain ⟨u, v, huv⟩ := List.append_of_mem hx
      have huv' := huv
      rw [hL] at huv'
      rcases dedupScan_nonprimary_split cosSim embed threshold _ [] u v x huv' hxp with
        ⟨b, hb, hbp, hbe⟩ | ⟨p, hp, -⟩
      · refine ⟨b, ?_, hbp, hbe⟩
        rw [huv]
        exact List.mem_append_left _ hb
      · simp at hp
    have hprim_id : ∀ p ∈ deduplicate cosSim embed threshold articles,
        inEvent r p = true → p.isPrimary = true → p.id = r := by
      intro p hp hie hpp
      have hpn := hprim_none p hp hpp
      simp only [inEvent, Bool.or_eq_true, beq_iff_eq] at hie
      rcases hie with h | h
      · exact h
      · rw [hpn] at h
        cases h
    obtain ⟨a0, ha0, hcase⟩ := hr
    have hexists : ∃ p, p ∈ deduplicate cosSim embed threshold articles
        ∧ inEvent r p = true ∧ p.isPrimary = true := by
      rcases hcase with ⟨hp0, hid0⟩ | hrel
      · exact ⟨a0, ha0, by simp [inEvent, hid0], hp0⟩
      · have ha0np : a0.isPrimary = false := by
          cases hb : a0.isPrimary
          · rfl
          · have hn := hprim_none a0 ha0 hb
            rw [hn] at hrel
            cases hrel
        obtain ⟨b, hb, hbp, hbe⟩ := hresolve a0 ha0 ha0np
        rw [hrel] at hbe
        have hbid : b.id = r := (Option.some_inj.mp hbe).symm
        exact ⟨b, hb, by simp [inEvent, hbid], hbp⟩
    obtain ⟨p, hp, hpie, hpp⟩ := hexists
    constructor
    · refine ⟨p, ⟨hp, hpie, hpp⟩, ?_⟩
      rintro q ⟨hq, hqie, hqp⟩
      have hqid := hprim_id q hq hqie hqp
      have hpid := hprim_id p hp hpie hpp
      exact hinj hq hp (by rw [hqid, hpid])
    · intro x hx hxie hxnp
      obtain ⟨b, hb, hbp, hbe⟩ := hresolve x hx hxnp
      rw [hbe]
      exact Option.some_ne_none _

/-! ### Concrete inputs for the dedup witnesses -/

/-- A 1001-character summary, just over the retention cutoff. -/
def longSummary : String := String.mk (List.replicate 1001 'x')

/-- A degenerate cosine similarity that reports every pair as identical. -/
def simOne : ℕ → ℕ → ℚ := fun _ _ => 1

/-- A degenerate embedding mapping every text to the same vector. -/
def embZero : String → ℕ := fun _ => 0

def artA : ProcessedArticle := ⟨"a", "ta", "", "sa", 0, true, none⟩

def artC : ProcessedArticle := ⟨"c", "tc", "", longSummary, 1, true, none⟩

/-- Claim C1 witness: with one seen event exceeding the threshold, the
long-summary duplicate is retained as non-primary pointing at the
primary. -/
theorem deduplicate_duplicate_retention_witness :
    List.Sorted byPublishedAt ([artA] ++ artC :: [])
    ∧ (∃ p ∈ seenEvents simOne embZero 0 [artA] [],
        (0:ℚ) < simOne (embZero (articleText artC)) p.1)
    ∧ 1000 < artC.summaryZh.length
    ∧ ((artC.summaryZh.length ≤ 1000 →
          deduplicate simOne embZero 0 ([artA] ++ artC :: [])
            = deduplicate simOne embZero 0 ([artA] ++ []))
      ∧ (1000 < artC.summaryZh.length →
          ∃ eid,
            deduplicate simOne embZero 0 ([artA] ++ artC :: [])
              = dedupScan simOne embZero 0 [artA] []
                ++ ({ artC with isPrimary := false, relatedEventId := some eid }
                    :: dedupScan simOne embZero 0 []
                        (seenEvents simOne embZero 0 [artA] []))
            ∧ ∃ b ∈ dedupScan simOne embZero 0 [artA] [],
                b.isPrimary = true ∧ b.id = eid)) := by
  have hs : List.Sorted byPublishedAt ([artA] ++ artC :: []) := by decide
  have hd : ∃ p ∈ seenEvents simOne embZero 0 [artA] [],
      (0:ℚ) < simOne (embZero (articleText artC)) p.1 := by decide
  exact ⟨hs, hd, by decide,
    deduplicate_duplicate_retention simOne embZero 0 [artA] [] artC hs hd⟩

/-- Embedding by text length, used by the C2 witness to distinguish the
three articles. -/
def embLen : String → ℕ := fun s => s.length

/-- A similarity table for the C2 witness: the article of text length 4
matches the first event (length 2) with similarity 2 and the second event
(length 3) with the higher similarity 5. -/
def simTable : ℕ → ℕ → ℚ := fun x y =>
  if x = 4 ∧ y = 2 then 2 else if x = 4 ∧ y = 3 then 5 else 0

def artL2 : ProcessedArticle := ⟨"a", "x", "", "sa", 0, true, none⟩

def artL3 : ProcessedArticle := ⟨"b", "xy", "", "sb", 1, true, none⟩

def artL4 : ProcessedArticle := ⟨"c", "xyz", "", longSummary, 2, true, none⟩

/-- Claim C2 witness: both discovered events exceed the threshold for the
incoming article, the second with the strictly higher similarity, yet the
duplicate is related to the first event's representative id. -/
theorem deduplicate_first_exceeding_wins_witness :
    List.Sorted byPublishedAt ([artL2, artL3] ++ artL4 :: [])
    ∧ seenEvents simTable embLen 1 [artL2, artL3] [] = [] ++ (2, "a") :: [(3, "b")]
    ∧ (∀ p ∈ ([] : List (ℕ × String)),
        simTable (embLen (articleText artL4)) p.1 ≤ 1)
    ∧ (1:ℚ) < simTable (embLen (articleText artL4)) 2
    ∧ simTable (embLen (articleText artL4)) 2 < simTable (embLen (articleText artL4)) 3
    ∧ 1000 < artL4.summaryZh.length
    ∧ deduplicate simTable embLen 1 ([artL2, artL3] ++ artL4 :: [])
        = dedupScan simTable embLen 1 [artL2, artL3] []
          ++ ({ artL4 with isPrimary := false, relatedEventId := some "a" }
              :: dedupScan simTable embLen 1 [] ([] ++ (2, "a") :: [(3, "b")])) := by
  have hs : List.Sorted byPublishedAt ([artL2, artL3] ++ artL4 :: []) := by decide
  have hseen : seenEvents simTable embLen 1 [artL2, artL3] [] = [] ++ (2, "a") :: [(3, "b")] := by
    decide
  have hmiss : ∀ p ∈ ([] : List (ℕ × String)),
      simTable (embLen (articleText artL4)) p.1 ≤ 1 := by decide
  have hhit : (1:ℚ) < simTable (embLen (articleText artL4)) 2 := by decide
  have hlong : 1000 < artL4.summaryZh.length := by decide
  exact ⟨hs, hseen, hmiss, hhit, by decide, hlong,
    deduplicate_first_exceeding_wins simTable embLen 1 [artL2, artL3] [] [] [(3, "b")]
      2 "a" artL4 hs hseen hmiss hhit hlong⟩

/-- Claim C9 witness: in the concrete two-article output the non-primary
article points back at the earlier primary. -/
theorem deduplicate_nonprimary_points_back_witness :
    deduplicate simOne embZero 0 [artA, artC]
      = [{ artA with isPrimary := true }]
        ++ ({ artC with isPrimary := false, relatedEventId := some "a" } :: [])
    ∧ ({ artC with isPrimary := false, relatedEventId := some "a" }
        : ProcessedArticle).isPrimary = false
    ∧ ∃ b ∈ [({ artA with isPrimary := true } : ProcessedArticle)],
        b.isPrimary = true
        ∧ ({ artC with isPrimary := false, relatedEventId := some "a" }
            : ProcessedArticle).relatedEventId = some b.id := by
  have hsplit : deduplicate simOne embZero 0 [artA, artC]
      = [{ artA with isPrimary := true }]
        ++ ({ artC with isPrimary := false, relatedEventId := some "a" } :: []) := by
    decide
  exact ⟨hsplit, rfl,
    deduplicate_nonprimary_points_back simOne embZero 0 [artA, artC]
      [{ artA with isPrimary := true }] []
      { artC with isPrimary := false, relatedEventId := some "a" } hsplit rfl⟩

/-- Claim C3 witness: in the concrete two-article run the event
represented by `"a"` has exactly one primary and its non-primary member
carries a non-null `relatedEventId`. -/
theorem deduplicate_one_primary_per_event_witness :
    (∀ x ∈ [artA, artC], x.relatedEventId = none)
    ∧ (([artA, artC].map (fun x => x.id)).Nodup)
    ∧ isEventId (deduplicate simOne embZero 0 [artA, artC]) "a"
    ∧ ((∃! p, p ∈ deduplicate simOne embZero 0 [artA, artC]
          ∧ inEvent "a" p = true ∧ p.isPrimary = true)
      ∧ ∀ x ∈ deduplicate simOne embZero 0 [artA, artC],
          inEvent "a" x = true → x.isPrimary = false → x.relatedEventId ≠ none) := by
  have hnone : ∀ x ∈ [artA, artC], x.relatedEventId = none := by decide
  have hids : (([artA, artC]).map (fun x => x.id)).Nodup := by decide
  have hev : isEventId (deduplicate simOne embZero 0 [artA, artC]) "a" := by
    unfold isEventId
    decide
  exact ⟨hnone, hids, hev,
    deduplicate_one_primary_per_event simOne embZero 0 [artA, artC] hnone hids "a" hev⟩

end FeishuNews
